import Mathlib

/-!
# Verification of the pitch-to-chord recognition pipeline

Shallow embedding of the core pipeline of this repository:

* `calculateConfidence`, `detectChordsFromNotes`, `refineNotesForChordDetection`
  (from `packages/music-theory/src/chord-detection.ts`),
* `frequenciesToNotes` (from `packages/music-theory/src/note-conversion.ts`),
* `filterHarmonicPeaks` (from `packages/music-theory/src/frequency-utils.ts`),
* `extractFrequenciesFromAudioData` and `goertzelMagnitude`
  (from `packages/audio/src/wav-decoder.d.ts`, the variant at lines 367-485).

Modelling conventions:

* JavaScript floating-point numbers are modelled exactly: by `ℚ` where the
  code only needs field arithmetic and comparisons, and by `ℝ` where the code
  uses transcendental functions (`Math.cos`, `Math.log2`, `Math.sqrt`,
  `Math.pow`).  The real-valued definitions are `noncomputable`, exactly as in
  ordinary real analysis.
* A JavaScript `number` fed to the note quantizer is modelled by `JSNum`,
  which distinguishes `NaN`, the two infinities and finite values, so that the
  code's behaviour on degenerate frequencies is captured faithfully.
* `Math.round(12 * Math.log2(q / 440) + 69) = m` is characterized, for a
  positive rational `q`, by the (decidable) rational inequality
  `2 ^ (2m - 139) ≤ (q / 440) ^ 24 < 2 ^ (2m - 137)`, obtained by raising
  `m - 1/2 ≤ 12 * log2 (q/440) + 69 < m + 1/2` to the 24th power in base 2.
  Ties (`… = m - 1/2`) would need `q / 440` to be an irrational power of two,
  so the characterization is exact on rationals.
* `|1200 * Math.log2 r| ≤ tol` is characterized, for a rational ratio `r > 0`,
  by `1 / 2 ^ tol ≤ r ^ 1200 ≤ 2 ^ tol` (raise to the 1200th power in base 2);
  for `r ≤ 0` the JavaScript expression is `NaN` (or `-∞`), which fails the
  comparison, hence the `0 < r` conjunct.
* Third-party `tonal` functions (`Chord.detect`, `Chord.get`, `Note.get`) are
  not part of this repository's sources; they are modelled from the spec and
  marked as such in their doc comments.
-/

/-! ## Basic helpers -/

/-- First-occurrence deduplication, the semantics of JavaScript
`[...new Set(xs)]` (insertion order, first occurrence kept). -/
def jsDedup {α : Type} [DecidableEq α] : List α → List α
  | [] => []
  | a :: l => a :: jsDedup (l.filter (fun x => x ≠ a))
termination_by l => l.length
decreasing_by
  exact Nat.lt_succ_of_le (List.length_filter_le _ _)

theorem mem_jsDedup {α : Type} [DecidableEq α] {a : α} :
    ∀ {l : List α}, a ∈ jsDedup l ↔ a ∈ l := by
  intro l
  induction l using jsDedup.induct with
  | case1 => simp [jsDedup]
  | case2 b l ih =>
    rw [jsDedup]
    by_cases hab : a = b
    · subst hab; simp
    · simp only [List.mem_cons, hab, false_or]
      rw [ih]
      simp [List.mem_filter, hab]

theorem nodup_jsDedup {α : Type} [DecidableEq α] :
    ∀ (l : List α), (jsDedup l).Nodup := by
  intro l
  induction l using jsDedup.induct with
  | case1 => simp [jsDedup]
  | case2 b l ih =>
    rw [jsDedup]
    refine List.nodup_cons.2 ⟨?_, ih⟩
    intro hmem
    have hb := mem_jsDedup.1 hmem
    rw [List.mem_filter] at hb
    simp at hb

theorem length_jsDedup_le {α : Type} [DecidableEq α] :
    ∀ (l : List α), (jsDedup l).length ≤ l.length := by
  intro l
  induction l using jsDedup.induct with
  | case1 => simp [jsDedup]
  | case2 b l ih =>
    rw [jsDedup]
    simp only [List.length_cons]
    exact Nat.succ_le_succ (le_trans ih (List.length_filter_le _ _))

/-! ## Confidence scorer (`calculateConfidence`, chord-detection.ts lines 68-100) -/

/-- The literal `semitoneAdjacency` table from `calculateConfidence`
(chord-detection.ts lines 72-85); a name absent from the table gives `[]`,
as does the JavaScript `|| []` fallback. -/
def semitoneAdjacency (note : String) : List String :=
  if note = "C" then ["B", "Db"]
  else if note = "Db" then ["C", "D"]
  else if note = "D" then ["Db", "Eb"]
  else if note = "Eb" then ["D", "E"]
  else if note = "E" then ["Eb", "F"]
  else if note = "F" then ["E", "Gb"]
  else if note = "Gb" then ["F", "G"]
  else if note = "G" then ["Gb", "Ab"]
  else if note = "Ab" then ["G", "A"]
  else if note = "A" then ["Ab", "Bb"]
  else if note = "Bb" then ["A", "B"]
  else if note = "B" then ["Bb", "C"]
  else []

/-- Per-note contribution to the loop of `calculateConfidence`: `1` for a note
present in the template, `0.4` for a semitone-adjacent neighbour of a template
note, `0` otherwise. -/
def noteScore (chordNotes : List String) (note : String) : ℚ :=
  if note ∈ chordNotes then 1
  else if (semitoneAdjacency note).any (fun n => n ∈ chordNotes) then 2/5
  else 0

/-- `calculateConfidence` (chord-detection.ts lines 68-100): guard for an empty
template, then the accumulated per-note score divided by the template size. -/
def calculateConfidence (detectedNotes chordNotes : List String) : ℚ :=
  if chordNotes.length = 0 then 0
  else ((detectedNotes.map (noteScore chordNotes)).sum) / chordNotes.length

theorem noteScore_nonneg (chordNotes : List String) (note : String) :
    0 ≤ noteScore chordNotes note := by
  unfold noteScore
  split
  · norm_num
  · split <;> norm_num

theorem noteScore_le_one (chordNotes : List String) (note : String) :
    noteScore chordNotes note ≤ 1 := by
  unfold noteScore
  split
  · norm_num
  · split <;> norm_num

theorem noteScore_congr {t₁ t₂ : List String} (h : t₁.Perm t₂) :
    noteScore t₁ = noteScore t₂ := by
  funext note
  unfold noteScore
  by_cases h1 : note ∈ t₁
  · rw [if_pos h1, if_pos (h.mem_iff.1 h1)]
  · rw [if_neg h1, if_neg (fun hc => h1 (h.mem_iff.2 hc))]
    by_cases h2 : (semitoneAdjacency note).any (fun n => n ∈ t₁)
    · rw [if_pos h2]
      rw [List.any_eq_true] at h2
      obtain ⟨x, hx, hxt⟩ := h2
      rw [if_pos]
      rw [List.any_eq_true]
      refine ⟨x, hx, ?_⟩
      simp only [decide_eq_true_eq] at hxt ⊢
      exact h.mem_iff.1 hxt
    · rw [if_neg h2, if_neg]
      intro hc
      apply h2
      rw [List.any_eq_true] at hc ⊢
      obtain ⟨x, hx, hxt⟩ := hc
      refine ⟨x, hx, ?_⟩
      simp only [decide_eq_true_eq] at hxt ⊢
      exact h.mem_iff.2 hxt

/-- C6: the confidence score of `calculateConfidence` is invariant under
permutations of the detected-note list and of the template-note list: each
detected note's contribution depends only on membership in the template, and
the accumulated sum does not depend on traversal order. -/
theorem calculateConfidence_perm_invariant
    (d₁ d₂ t₁ t₂ : List String) (hd : d₁.Perm d₂) (ht : t₁.Perm t₂) :
    calculateConfidence d₁ t₁ = calculateConfidence d₂ t₂ := by
  unfold calculateConfidence
  rw [ht.length_eq, noteScore_congr ht, ((hd.map (noteScore t₂)).sum_eq : _)]

/-- Witness for C6 at concrete permuted inputs. -/
theorem calculateConfidence_perm_invariant_witness :
    calculateConfidence ["C", "E", "G", "B"] ["C", "E", "G"] =
      calculateConfidence ["B", "G", "E", "C"] ["E", "G", "C"] :=
  calculateConfidence_perm_invariant _ _ _ _ (by decide) (by decide)

/-- C10: an empty template returns exactly 0 — the division by the template
size is guarded by the `chordNotes.length === 0` check. -/
theorem calculateConfidence_empty_template (detectedNotes : List String) :
    calculateConfidence detectedNotes [] = 0 := by
  simp [calculateConfidence]

/-- C1 counterexample: with detected notes `[C, E, G, B]` against the template
`[C, E, G]`, the three template notes score 1 each and `B` earns the 0.4
semitone-neighbour credit (its neighbour `C` is in the template), so the
returned score is `3.4 / 3 = 17/15 > 1` — the result is NOT in `[0, 1]`. -/
theorem calculateConfidence_exceeds_one :
    calculateConfidence ["C", "E", "G", "B"] ["C", "E", "G"] = 17/15 ∧
      ¬ (calculateConfidence ["C", "E", "G", "B"] ["C", "E", "G"] ≤ 1) := by
  constructor
  · simp [calculateConfidence, noteScore, semitoneAdjacency]
    norm_num
  · simp [calculateConfidence, noteScore, semitoneAdjacency]
    norm_num

/-- C1 (amended): `calculateConfidence` is nonnegative, each detected note
contributes at most 1, so the score is at most
`|detectedNotes| / |templateNotes|`; in particular it lies in `[0, 1]`
whenever the detected-note list is no longer than the template-note list
(the code has no clamp, so more credited detected notes than template notes
push the score above 1). -/
theorem calculateConfidence_bounds (detectedNotes chordNotes : List String) :
    0 ≤ calculateConfidence detectedNotes chordNotes ∧
      (detectedNotes.length ≤ chordNotes.length →
        calculateConfidence detectedNotes chordNotes ≤ 1) := by
  unfold calculateConfidence
  by_cases h0 : chordNotes.length = 0
  · simp [h0]
  · rw [if_neg h0]
    have hpos : (0 : ℚ) < chordNotes.length := by
      have := Nat.pos_of_ne_zero h0
      exact_mod_cast this
    have hsum0 : 0 ≤ (detectedNotes.map (noteScore chordNotes)).sum := by
      apply List.sum_nonneg
      intro x hx
      obtain ⟨n, _, rfl⟩ := List.mem_map.1 hx
      exact noteScore_nonneg _ _
    constructor
    · exact div_nonneg hsum0 (le_of_lt hpos)
    · intro hlen
      rw [div_le_one hpos]
      calc (detectedNotes.map (noteScore chordNotes)).sum
          ≤ (detectedNotes.map (fun _ => (1:ℚ))).sum := by
            apply List.sum_le_sum
            intro i _
            exact noteScore_le_one _ _
        _ = (detectedNotes.length : ℚ) := by
            simp [List.map_const']
        _ ≤ (chordNotes.length : ℚ) := by exact_mod_cast hlen

/-- Witness for C1 (amended): a detected set with the 0.4 neighbour credit
(`B` next to template note `C`) whose size does not exceed the template's,
scoring `(1 + 1 + 0.4)/3 = 0.8`, inside `[0, 1]`. -/
theorem calculateConfidence_bounds_witness :
    0 ≤ calculateConfidence ["C", "E", "B"] ["C", "E", "G"] ∧
      calculateConfidence ["C", "E", "B"] ["C", "E", "G"] ≤ 1 :=
  ⟨(calculateConfidence_bounds ["C", "E", "B"] ["C", "E", "G"]).1,
   (calculateConfidence_bounds ["C", "E", "B"] ["C", "E", "G"]).2 (by decide)⟩

/-! ## Note quantizer (`frequenciesToNotes`, note-conversion.ts lines 7-31) -/

/-- A JavaScript `number` as fed to the note quantizer: `NaN`, `±Infinity`,
or a finite value (modelled exactly as a rational). -/
inductive JSNum : Type where
  | nan : JSNum
  | posInf : JSNum
  | negInf : JSNum
  | val : ℚ → JSNum
deriving DecidableEq

/-- A strictly positive finite frequency — the only inputs on which the
quantizer's `Math.round(12 * Math.log2(freq / 440) + 69)` produces a finite
in-range MIDI number. -/
def JSNum.isPosFinite : JSNum → Bool
  | .val q => decide (0 < q)
  | _ => false

/-- `Math.round(12 * Math.log2(q / 440) + 69) = m` for a positive rational
`q`: equivalent to `m - 1/2 ≤ 12 * log2 (q / 440) + 69 < m + 1/2`, i.e. (after
raising to the 24th power in base 2) to the decidable rational inequality
below.  Exact on rationals, since a tie would force `q / 440` to be the
irrational `2 ^ ((2m - 139)/24)`. -/
def roundsToMidi (q : ℚ) (m : ℤ) : Prop :=
  (2:ℚ) ^ (2*m - 139) ≤ (q / 440) ^ (24:ℕ) ∧ (q / 440) ^ (24:ℕ) < (2:ℚ) ^ (2*m - 137)

instance (q : ℚ) (m : ℤ) : Decidable (roundsToMidi q m) := by
  unfold roundsToMidi; infer_instance

/-- The MIDI numbers `0..127` accepted by the quantizer's range check. -/
def midiSearchRange : List ℤ := List.map Int.ofNat (List.range 128)

/-- The per-frequency step of `frequenciesToNotes` (note-conversion.ts lines
13-14): compute `Math.round(12 * Math.log2(freq / 440) + 69)` and keep the
result only if it lies in `[0, 127]`.  A `NaN`, infinite, zero or negative
frequency makes the rounded value `NaN` or `±Infinity`, which fails the
`midiNote >= 0 && midiNote <= 127` check, hence `none`. -/
def frequencyToMidiInRange : JSNum → Option ℤ
  | .val q =>
      if 0 < q then midiSearchRange.find? (fun m => decide (roundsToMidi q m))
      else none
  | _ => none

/-- Modelled from the spec: the third-party `Midi.midiToNoteName` /
`Note.get(...).pc` composition of `tonal` (not part of this repository's
sources) maps a MIDI number to its pitch class — "note name using standard
12-tone chromatic naming, strip octave, keep pitch class only".  The flat
spellings match the repository's own `semitoneAdjacency` table. -/
def pitchClassNames : List String :=
  ["C", "Db", "D", "Eb", "E", "F", "Gb", "G", "Ab", "A", "Bb", "B"]

/-- Pitch class of a MIDI note number. -/
def midiPitchClass (m : ℤ) : String := pitchClassNames.getD (m % 12).toNat "C"

/-- `frequenciesToNotes` (note-conversion.ts lines 7-31): quantize each
frequency to a MIDI note, keep the in-range ones, convert to pitch classes,
and deduplicate with JavaScript `Set` semantics. -/
def frequenciesToNotes (frequencies : List JSNum) : List String :=
  jsDedup (frequencies.filterMap (fun f => (frequencyToMidiInRange f).map midiPitchClass))

theorem midiPitchClass_mem (m : ℤ) : midiPitchClass m ∈ pitchClassNames := by
  unfold midiPitchClass
  have h12 : (0:ℤ) < 12 := by norm_num
  have hlt : (m % 12).toNat < 12 := by
    have h1 : 0 ≤ m % 12 := Int.emod_nonneg m (by norm_num)
    have h2 : m % 12 < 12 := Int.emod_lt_of_pos m h12
    omega
  have hlen : (m % 12).toNat < pitchClassNames.length := by
    simpa [pitchClassNames] using hlt
  rw [List.getD_eq_getElem _ _ hlen]
  exact List.getElem_mem hlen

theorem filterMap_eq_filterMap_filter {α β : Type} (p : α → Bool) (g : α → Option β)
    (hg : ∀ a, p a = false → g a = none) :
    ∀ l : List α, l.filterMap g = (l.filter p).filterMap g := by
  intro l
  induction l with
  | nil => simp
  | cons a l ih =>
    cases hpa : p a with
    | false => simp [List.filter_cons, hpa, List.filterMap_cons, hg a hpa, ih]
    | true =>
      cases hga : g a with
      | none => simp [List.filter_cons, hpa, List.filterMap_cons, hga, ih]
      | some b => simp [List.filter_cons, hpa, List.filterMap_cons, hga, ih]

/-- C4: degenerate frequencies (`NaN`, `±Infinity`, zero, negatives) are
dropped by the quantizer — removing them from the input does not change the
output — and every produced value is one of the 12 pitch-class names, so no
`NaN` ever propagates into the note set. -/
theorem frequenciesToNotes_drops_degenerate (frequencies : List JSNum) :
    frequenciesToNotes frequencies =
        frequenciesToNotes (frequencies.filter JSNum.isPosFinite) ∧
      ∀ s ∈ frequenciesToNotes frequencies, s ∈ pitchClassNames := by
  constructor
  · unfold frequenciesToNotes
    rw [filterMap_eq_filterMap_filter JSNum.isPosFinite _ ?_ frequencies]
    intro f hf
    cases f with
    | nan => rfl
    | posInf => rfl
    | negInf => rfl
    | val q =>
      simp only [JSNum.isPosFinite, decide_eq_false_iff_not, not_lt] at hf
      simp [frequencyToMidiInRange, not_lt.2 hf]
  · intro s hs
    have hs' := mem_jsDedup.1 hs
    obtain ⟨f, _, hf⟩ := List.mem_filterMap.1 hs'
    obtain ⟨m, _, rfl⟩ := Option.map_eq_some'.1 hf
    exact midiPitchClass_mem m

theorem roundsToMidi_unique {q : ℚ} {m m' : ℤ}
    (h : roundsToMidi q m) (h' : roundsToMidi q m') : m = m' := by
  obtain ⟨h1, h2⟩ := h
  obtain ⟨h1', h2'⟩ := h'
  by_contra hne
  rcases lt_or_gt_of_ne hne with hlt | hgt
  · have hle : 2*m - 137 ≤ 2*m' - 139 := by omega
    have := zpow_le_zpow_right₀ (by norm_num : (1:ℚ) ≤ 2) hle
    linarith
  · have hle : 2*m' - 137 ≤ 2*m - 139 := by omega
    have := zpow_le_zpow_right₀ (by norm_num : (1:ℚ) ≤ 2) hle
    linarith

theorem mem_midiSearchRange {m : ℤ} :
    m ∈ midiSearchRange ↔ 0 ≤ m ∧ m ≤ 127 := by
  constructor
  · intro h
    obtain ⟨n, hn, rfl⟩ := List.mem_map.1 h
    have := List.mem_range.1 hn
    rw [Int.ofNat_eq_natCast]
    omega
  · rintro ⟨h0, h1⟩
    apply List.mem_map.2
    refine ⟨m.toNat, List.mem_range.2 (by omega), ?_⟩
    rw [Int.ofNat_eq_natCast]
    omega

theorem frequencyToMidiInRange_eq_some {q : ℚ} {m : ℤ}
    (hq : 0 < q) (hm : roundsToMidi q m) (h0 : 0 ≤ m) (h1 : m ≤ 127) :
    frequencyToMidiInRange (JSNum.val q) = some m := by
  simp only [frequencyToMidiInRange]
  rw [if_pos hq]
  have hmem : m ∈ midiSearchRange := mem_midiSearchRange.2 ⟨h0, h1⟩
  have hsome : ∃ y, midiSearchRange.find? (fun m => decide (roundsToMidi q m)) = some y := by
    rw [← Option.isSome_iff_exists, List.find?_isSome]
    exact ⟨m, hmem, by simpa using hm⟩
  obtain ⟨y, hy⟩ := hsome
  have hpy : roundsToMidi q y := by simpa using List.find?_some hy
  rw [hy, roundsToMidi_unique hpy hm]

theorem frequencyToMidiInRange_eq_none_of_out_of_range {q : ℚ} {m : ℤ}
    (hm : roundsToMidi q m) (hout : m < 0 ∨ 127 < m) :
    frequencyToMidiInRange (JSNum.val q) = none := by
  simp only [frequencyToMidiInRange]
  by_cases hq : 0 < q
  · rw [if_pos hq, List.find?_eq_none]
    intro x hx hpx
    have hpx' : roundsToMidi q x := by simpa using hpx
    have := roundsToMidi_unique hpx' hm
    subst this
    have := mem_midiSearchRange.1 hx
    omega
  · rw [if_neg hq]

theorem frequencyToMidiInRange_some_inv {q : ℚ} {m : ℤ}
    (h : frequencyToMidiInRange (JSNum.val q) = some m) :
    roundsToMidi q m ∧ 0 ≤ m ∧ m ≤ 127 := by
  simp only [frequencyToMidiInRange] at h
  by_cases hq : 0 < q
  · rw [if_pos hq] at h
    have hp : roundsToMidi q m := by simpa using List.find?_some h
    have hmem := mem_midiSearchRange.1 (List.mem_of_find?_eq_some h)
    exact ⟨hp, hmem.1, hmem.2⟩
  · rw [if_neg hq] at h
    exact absurd h (by simp)

/-- C5: on positive finite frequencies the quantizer is exactly the map
`f ↦ round(12 * log2 (f / 440) + 69)` followed by the `[0,127]` range filter,
pitch-class conversion and deduplication.  Concretely: (i) a frequency whose
rounded MIDI number `m` lies in `[0,127]` contributes the pitch class of `m`
to the output, (ii) a frequency whose rounded MIDI number falls outside
`[0,127]` is discarded, (iii) every output value arises that way, and (iv) the
output contains no duplicates. -/
theorem frequenciesToNotes_characterization (fs : List ℚ) (hpos : ∀ q ∈ fs, 0 < q) :
    (∀ q ∈ fs, ∀ m : ℤ, roundsToMidi q m →
        ((0 ≤ m ∧ m ≤ 127) →
          midiPitchClass m ∈ frequenciesToNotes (fs.map JSNum.val)) ∧
        ((m < 0 ∨ 127 < m) →
          frequencyToMidiInRange (JSNum.val q) = none)) ∧
      (∀ s ∈ frequenciesToNotes (fs.map JSNum.val), ∃ q ∈ fs, ∃ m : ℤ,
        roundsToMidi q m ∧ 0 ≤ m ∧ m ≤ 127 ∧ s = midiPitchClass m) ∧
      (frequenciesToNotes (fs.map JSNum.val)).Nodup := by
  refine ⟨?_, ?_, nodup_jsDedup _⟩
  · intro q hq m hm
    constructor
    · rintro ⟨h0, h1⟩
      unfold frequenciesToNotes
      rw [mem_jsDedup]
      rw [List.mem_filterMap]
      refine ⟨JSNum.val q, List.mem_map_of_mem _ hq, ?_⟩
      rw [frequencyToMidiInRange_eq_some (hpos q hq) hm h0 h1]
      rfl
    · intro hout
      exact frequencyToMidiInRange_eq_none_of_out_of_range hm hout
  · intro s hs
    unfold frequenciesToNotes at hs
    rw [mem_jsDedup] at hs
    obtain ⟨f, hf, hfs⟩ := List.mem_filterMap.1 hs
    obtain ⟨q, hq, rfl⟩ := List.mem_map.1 hf
    obtain ⟨m, hm, rfl⟩ := Option.map_eq_some'.1 hfs
    obtain ⟨hr, h0, h1⟩ := frequencyToMidiInRange_some_inv hm
    exact ⟨q, hq, m, hr, h0, h1, rfl⟩

/-- Witness for C5 at the concrete frequency list `[440]` (concert A). -/
theorem frequenciesToNotes_characterization_witness :
    (∀ q ∈ [(440:ℚ)], ∀ m : ℤ, roundsToMidi q m →
        ((0 ≤ m ∧ m ≤ 127) →
          midiPitchClass m ∈ frequenciesToNotes ([(440:ℚ)].map JSNum.val)) ∧
        ((m < 0 ∨ 127 < m) →
          frequencyToMidiInRange (JSNum.val q) = none)) ∧
      (∀ s ∈ frequenciesToNotes ([(440:ℚ)].map JSNum.val), ∃ q ∈ [(440:ℚ)], ∃ m : ℤ,
        roundsToMidi q m ∧ 0 ≤ m ∧ m ≤ 127 ∧ s = midiPitchClass m) ∧
      (frequenciesToNotes ([(440:ℚ)].map JSNum.val)).Nodup :=
  frequenciesToNotes_characterization [440] (by norm_num)

/-! ## Harmonic filter (`filterHarmonicPeaks`, frequency-utils.ts lines 117-143) -/

/-- `FrequencyPeak` from `packages/types/src/index.ts`. -/
structure FrequencyPeak where
  frequency : ℚ
  amplitude : ℚ
  prominence : ℚ
deriving DecidableEq

/-- `|1200 * Math.log2 r| <= tol` for a rational ratio `r`: equivalent (raise
to the 1200th power in base 2) to `2^(-tol) ≤ r^1200 ≤ 2^tol` together with
`0 < r` (for `r ≤ 0` the JavaScript `Math.log2` yields `NaN` or `-Infinity`,
and the absolute-value comparison is false). -/
def withinCents (r : ℚ) (tol : ℕ) : Prop :=
  0 < r ∧ 1 / (2:ℚ)^tol ≤ r^(1200:ℕ) ∧ r^(1200:ℕ) ≤ (2:ℚ)^tol

instance (r : ℚ) (tol : ℕ) : Decidable (withinCents r tol) := by
  unfold withinCents; infer_instance

/-- The inner loop of `filterHarmonicPeaks`: is `peak` within `toleranceCents`
of `base.frequency * k` for some integer multiple `k ∈ [2, maxMultiple]`? -/
def isHarmonicOfPeak (maxMultiple toleranceCents : ℕ) (base peak : FrequencyPeak) : Bool :=
  (List.range' 2 (maxMultiple - 1)).any
    (fun k => decide (withinCents (peak.frequency / (base.frequency * k)) toleranceCents))

/-- The greedy accept loop of `filterHarmonicPeaks` (frequency-utils.ts lines
124-140): reject a peak that is a harmonic of an already-accepted fundamental,
otherwise append it; stop as soon as 8 fundamentals are accepted (the `break`
runs after each iteration, and the length can only reach 8 right after a
push). -/
def filterHarmonicAux (maxMultiple toleranceCents : ℕ)
    (fundamentals : List FrequencyPeak) : List FrequencyPeak → List FrequencyPeak
  | [] => fundamentals
  | peak :: rest =>
    let fundamentals' :=
      if fundamentals.any (fun base => isHarmonicOfPeak maxMultiple toleranceCents base peak)
      then fundamentals else fundamentals ++ [peak]
    if 8 ≤ fundamentals'.length then fundamentals'
    else filterHarmonicAux maxMultiple toleranceCents fundamentals' rest

/-- `filterHarmonicPeaks` (frequency-utils.ts lines 117-143) with its default
options `maxMultiple = 6`, `toleranceCents = 35`. -/
def filterHarmonicPeaks (peaks : List FrequencyPeak)
    (maxMultiple : ℕ := 6) (toleranceCents : ℕ := 35) : List FrequencyPeak :=
  filterHarmonicAux maxMultiple toleranceCents [] peaks

theorem filterHarmonicAux_append (mm tol : ℕ) :
    ∀ (rest acc : List FrequencyPeak),
      ∃ s, filterHarmonicAux mm tol acc rest = acc ++ s := by
  intro rest
  induction rest with
  | nil => intro acc; exact ⟨[], by simp [filterHarmonicAux]⟩
  | cons peak rest ih =>
    intro acc
    rw [filterHarmonicAux]
    by_cases hh : (acc.any fun base => isHarmonicOfPeak mm tol base peak) = true
    · simp only [hh, if_true]
      by_cases hc : 8 ≤ acc.length
      · exact ⟨[], by rw [if_pos hc, List.append_nil]⟩
      · obtain ⟨s, hs⟩ := ih acc
        exact ⟨s, by rw [if_neg hc, hs]⟩
    · simp only [Bool.not_eq_true] at hh
      simp only [hh, Bool.false_eq_true, if_false]
      by_cases hc : 8 ≤ (acc ++ [peak]).length
      · exact ⟨[peak], by rw [if_pos hc]⟩
      · obtain ⟨s, hs⟩ := ih (acc ++ [peak])
        exact ⟨[peak] ++ s, by rw [if_neg hc, hs, List.append_assoc]⟩

theorem withinCents_one (tol : ℕ) : withinCents 1 tol := by
  refine ⟨one_pos, ?_, ?_⟩
  · rw [one_pow]
    rw [div_le_one (by positivity)]
    exact one_le_pow₀ (by norm_num)
  · rw [one_pow]
    exact one_le_pow₀ (by norm_num)

theorem isHarmonicOfPeak_of_exact_multiple {base peak : FrequencyPeak}
    (hb : 0 < base.frequency) (k : ℕ) (hk2 : 2 ≤ k) (hk6 : k ≤ 6)
    (hf : peak.frequency = k * base.frequency) :
    isHarmonicOfPeak 6 35 base peak = true := by
  unfold isHarmonicOfPeak
  rw [List.any_eq_true]
  refine ⟨k, ?_, ?_⟩
  · have : (6:ℕ) - 1 = 5 := by norm_num
    rw [this, List.mem_range']
    exact ⟨k - 2, by omega, by omega⟩
  · rw [decide_eq_true_eq, hf]
    have hkq : (0:ℚ) < (k:ℚ) := by
      have : (0:ℕ) < k := by omega
      exact_mod_cast this
    have : (k:ℚ) * base.frequency / (base.frequency * (k:ℚ)) = 1 := by
      rw [mul_comm base.frequency (k:ℚ)]
      exact div_self (by positivity)
    rw [this]
    exact withinCents_one 35

theorem filterHarmonicAux_no_exact_multiples
    (p : FrequencyPeak) (hp : 0 < p.frequency) :
    ∀ (rest acc : List FrequencyPeak), p ∈ acc →
      (∀ q ∈ acc, q.frequency ≠ 2 * p.frequency ∧ q.frequency ≠ 3 * p.frequency) →
      ∀ q ∈ filterHarmonicAux 6 35 acc rest,
        q.frequency ≠ 2 * p.frequency ∧ q.frequency ≠ 3 * p.frequency := by
  intro rest
  induction rest with
  | nil =>
    intro acc _ hgood q hq
    rw [filterHarmonicAux] at hq
    exact hgood q hq
  | cons peak rest ih =>
    intro acc hmem hgood q hq
    rw [filterHarmonicAux] at hq
    by_cases hh : (acc.any fun base => isHarmonicOfPeak 6 35 base peak) = true
    · simp only [hh, if_true] at hq
      by_cases hc : 8 ≤ acc.length
      · rw [if_pos hc] at hq
        exact hgood q hq
      · rw [if_neg hc] at hq
        exact ih acc hmem hgood q hq
    · simp only [Bool.not_eq_true] at hh
      simp only [hh, Bool.false_eq_true, if_false] at hq
      have hpeak : peak.frequency ≠ 2 * p.frequency ∧ peak.frequency ≠ 3 * p.frequency := by
        constructor
        · intro h2
          have : isHarmonicOfPeak 6 35 p peak = true :=
            isHarmonicOfPeak_of_exact_multiple hp 2 (by norm_num) (by norm_num)
              (by rw [h2]; norm_num)
          have : (acc.any fun base => isHarmonicOfPeak 6 35 base peak) = true :=
            List.any_eq_true.2 ⟨p, hmem, this⟩
          rw [hh] at this
          exact Bool.false_ne_true this
        · intro h3
          have : isHarmonicOfPeak 6 35 p peak = true :=
            isHarmonicOfPeak_of_exact_multiple hp 3 (by norm_num) (by norm_num)
              (by rw [h3]; norm_num)
          have : (acc.any fun base => isHarmonicOfPeak 6 35 base peak) = true :=
            List.any_eq_true.2 ⟨p, hmem, this⟩
          rw [hh] at this
          exact Bool.false_ne_true this
      have hgood' : ∀ q ∈ acc ++ [peak],
          q.frequency ≠ 2 * p.frequency ∧ q.frequency ≠ 3 * p.frequency := by
        intro q hq'
        rcases List.mem_append.1 hq' with h | h
        · exact hgood q h
        · rw [List.mem_singleton.1 h]
          exact hpeak
      by_cases hc : 8 ≤ (acc ++ [peak]).length
      · rw [if_pos hc] at hq
        exact hgood' q hq
      · rw [if_neg hc] at hq
        exact ih (acc ++ [peak]) (List.mem_append.2 (Or.inl hmem)) hgood' q hq

/-- C3 counterexample: `filterHarmonicPeaks` does not sort its input.  On the
peak list `[200, 100, 300]` (amplitudes 5, 4, 3), the 2× multiple `200` of
`f = 100` is examined first, accepted as a fundamental, and RETAINED in the
output, contradicting the claim that the peaks at the 2× and 3× multiples of
`f` are dropped whenever `f`, `2f`, `3f` all occur in the list. -/
theorem filterHarmonicPeaks_unsorted_retains_multiple :
    filterHarmonicPeaks
        [⟨200, 5, 1⟩, ⟨100, 4, 1⟩, ⟨300, 3, 1⟩] =
      [⟨200, 5, 1⟩, ⟨100, 4, 1⟩] ∧
      (200:ℚ) = 2 * 100 := by
  constructor
  · norm_num [filterHarmonicPeaks, filterHarmonicAux, isHarmonicOfPeak, withinCents,
      List.range']
  · norm_num

/-- C3 (amended): if the peak at `f` comes FIRST in the list (as it does after
the callers' amplitude-descending sort whenever `f` is the strongest peak),
then `filterHarmonicPeaks` retains it at the head of its output and drops
every peak lying at exactly `2f` or `3f` (exact multiples are within any cents
tolerance). -/
theorem filterHarmonicPeaks_head_fundamental
    (p : FrequencyPeak) (rest : List FrequencyPeak) (hp : 0 < p.frequency) :
    (filterHarmonicPeaks (p :: rest)).head? = some p ∧
      ∀ q ∈ filterHarmonicPeaks (p :: rest),
        q.frequency ≠ 2 * p.frequency ∧ q.frequency ≠ 3 * p.frequency := by
  have hstep : filterHarmonicPeaks (p :: rest) = filterHarmonicAux 6 35 [p] rest := by
    rw [filterHarmonicPeaks, filterHarmonicAux]
    simp
  constructor
  · rw [hstep]
    obtain ⟨s, hs⟩ := filterHarmonicAux_append 6 35 rest [p]
    rw [hs]
    rfl
  · rw [hstep]
    apply filterHarmonicAux_no_exact_multiples p hp rest [p] (List.mem_singleton_self p)
    intro q hq
    rw [List.mem_singleton.1 hq]
    constructor
    · intro h; nlinarith
    · intro h; nlinarith

/-- Witness for C3 (amended) with `f = 100` first, followed by its exact 2×
and 3× multiples. -/
theorem filterHarmonicPeaks_head_fundamental_witness :
    (filterHarmonicPeaks [⟨100, 9, 1⟩, ⟨200, 5, 1⟩, ⟨300, 3, 1⟩]).head? =
        some ⟨100, 9, 1⟩ ∧
      ∀ q ∈ filterHarmonicPeaks [⟨100, 9, 1⟩, ⟨200, 5, 1⟩, ⟨300, 3, 1⟩],
        q.frequency ≠ 2 * (100:ℚ) ∧ q.frequency ≠ 3 * (100:ℚ) :=
  filterHarmonicPeaks_head_fundamental ⟨100, 9, 1⟩ [⟨200, 5, 1⟩, ⟨300, 3, 1⟩]
    (by norm_num)

/-! ## Chord matcher (`detectChordsFromNotes`, chord-detection.ts lines 8-63) -/

/-- Modelled from the spec: `Note.get(name).pc` of the third-party `tonal`
library (not in this repository's sources) — parse the leading note letter. -/
def letterSemitone : Char → Option ℕ
  | 'C' => some 0
  | 'D' => some 2
  | 'E' => some 4
  | 'F' => some 5
  | 'G' => some 7
  | 'A' => some 9
  | 'B' => some 11
  | _ => none

/-- Modelled from the spec: accidentals (`#`/`b`) shift the pitch class by a
semitone each; a digit or `-` starts the octave suffix, which is stripped
("strip octave, keep pitch class only"); any other character is invalid. -/
def accidentalFold : ℤ → List Char → Option ℤ
  | acc, [] => some acc
  | acc, c :: rest =>
    if c = '#' then accidentalFold (acc + 1) rest
    else if c = 'b' then accidentalFold (acc - 1) rest
    else if c.isDigit ∨ c = '-' then some acc
    else none

/-- Modelled from the spec: the pitch class of a note name, in the canonical
spelling of `pitchClassNames`, or `none` for an unparsable name. -/
def notePitchClass (s : String) : Option String :=
  match s.toList with
  | [] => none
  | c :: rest =>
    (letterSemitone c).bind (fun base =>
      (accidentalFold (base : ℤ) rest).map (fun v => pitchClassNames.getD (v % 12).toNat "C"))

/-- `normalizeNotes` (note-conversion.ts lines 77-79): map each name to its
pitch class and drop unparsable names (`filter(Boolean)`). -/
def normalizeNotes (notes : List String) : List String :=
  notes.filterMap notePitchClass

/-- A chord template: name string (root + quality suffix), root, quality
label, and note set. -/
structure ChordTemplate where
  name : String
  root : String
  quality : String
  notes : List String
deriving DecidableEq

/-- Modelled from the spec: the supported chord qualities with their interval
sets — "major, minor, dominant 7th, major 7th, minor 7th, diminished,
augmented, sus2, sus4, at minimum" (§4.4), intervals per the glossary
(major = root, +4, +7). -/
def chordQualities : List (String × List ℕ) :=
  [("", [0, 4, 7]),
   ("m", [0, 3, 7]),
   ("7", [0, 4, 7, 10]),
   ("maj7", [0, 4, 7, 11]),
   ("m7", [0, 3, 7, 10]),
   ("dim", [0, 3, 6]),
   ("aug", [0, 4, 8]),
   ("sus2", [0, 2, 7]),
   ("sus4", [0, 5, 7])]

/-- Modelled from the spec: the static chord-template table, "all 12 roots ×
each supported quality" (§4.4). -/
def chordTemplates : List ChordTemplate :=
  (List.range 12).flatMap (fun r =>
    chordQualities.map (fun q =>
      { name := pitchClassNames.getD r "C" ++ q.1,
        root := pitchClassNames.getD r "C",
        quality := q.1,
        notes := q.2.map (fun i => pitchClassNames.getD ((r + i) % 12) "C") }))

/-- Modelled from the spec: `Chord.detect` of the third-party `tonal` library
(not in this repository's sources), per the spec's chord matcher (§4.4):
"Requires at least 3 distinct pitch classes; otherwise returns an empty
list"; otherwise the templates whose note sets the input fully contains,
ranked with the richer template first (the spec's tie-break), as conventional
name strings such as `"C"`, `"Dm7"`, `"G7"`. -/
def chordDetect (notes : List String) : List String :=
  if (jsDedup notes).length < 3 then []
  else
    ((chordTemplates.filter
        (fun t => t.notes.all (fun n => n ∈ notes))).mergeSort
      (fun a b => b.notes.length ≤ a.notes.length)).map (fun t => t.name)

/-- Modelled from the spec: `Chord.get` — "a reference chord-template lookup
(by name, returning its canonical note set)" (§6). -/
def chordGet (chordName : String) : Option ChordTemplate :=
  chordTemplates.find? (fun t => t.name = chordName)

/-- `combinations` (chord-detection.ts lines 185-199): all `k`-element
subsequences in the same lexicographic index order as the JavaScript index
loop; `k <= 0` or `k > arr.length` gives `[]`. -/
def combosAux {α : Type} : ℕ → List α → List (List α)
  | 0, _ => [[]]
  | _ + 1, [] => []
  | k + 1, a :: as => (combosAux k as).map (fun s => a :: s) ++ combosAux (k + 1) as

def combinations {α : Type} (arr : List α) (k : ℕ) : List (List α) :=
  if k = 0 ∨ arr.length < k then [] else combosAux k arr

/-- The per-subset score of `refineNotesForChordDetection` (chord-detection.ts
lines 165-177): `none` when `Chord.detect` finds nothing for the subset,
otherwise `confidence * 100 + chordNotes.length * 10` with
`confidence = matchCount / (chordNotes.length || subset.length)`. -/
def subsetScore (subset : List String) : Option ℚ :=
  match chordDetect subset with
  | [] => none
  | c :: _ =>
    let chordNotes := ((chordGet c).map ChordTemplate.notes).getD []
    let matchCount := (subset.filter (fun n => n ∈ chordNotes)).length
    let denom := if chordNotes.length = 0 then subset.length else chordNotes.length
    some ((matchCount : ℚ) / denom * 100 + chordNotes.length * 10)

/-- The best-subset accumulation loop (strict `score > bestScore`, so the
first subset achieving the maximum is kept; `none` plays the role of the
initial `-Infinity`). -/
def bestSubsetFold : List (List String) → Option (ℚ × List String) → Option (ℚ × List String)
  | [], acc => acc
  | s :: rest, acc =>
    match subsetScore s with
    | none => bestSubsetFold rest acc
    | some sc =>
      match acc with
      | none => bestSubsetFold rest (some (sc, s))
      | some best =>
          if best.1 < sc then bestSubsetFold rest (some (sc, s))
          else bestSubsetFold rest (some best)

/-- `refineNotesForChordDetection` (chord-detection.ts lines 155-183):
deduplicate, cap at 6 notes, try 4-note then 3-note combinations, return the
best-scoring subset, or the capped list when no subset was scored. -/
def refineNotesForChordDetection (notes : List String) : List String :=
  let uniqueNotes := jsDedup notes
  let limited := uniqueNotes.take 6
  let best4 := bestSubsetFold (combinations limited 4) none
  let best :=
    match best4 with
    | some b => some b
    | none => bestSubsetFold (combinations limited 3) none
  match best with
  | some b => b.2
  | none => limited

/-- `ChordDetectionResult` from `packages/types/src/index.ts`. -/
structure ChordDetectionResult where
  chord : String
  confidence : ℚ
  notes : List String
  root : String
  quality : String
deriving DecidableEq

/-- `detectChordsFromNotes` (chord-detection.ts lines 8-63): guard on fewer
than 3 input notes and fewer than 3 normalized notes, detect on the full
normalized list, fall back to the refined subset when nothing is detected,
then build the single best-match result. -/
def detectChordsFromNotes (notes : List String) : List ChordDetectionResult :=
  if notes.length < 3 then []
  else
    let normalizedNotes := normalizeNotes notes
    if normalizedNotes.length < 3 then []
    else
      let detected0 := chordDetect normalizedNotes
      let detected :=
        if detected0.length = 0 then
          let refined := refineNotesForChordDetection normalizedNotes
          if 3 ≤ refined.length then chordDetect refined else detected0
        else detected0
      match detected with
      | [] => []
      | bestMatch :: _ =>
        match chordGet bestMatch with
        | none => []
        | some info =>
          [{ chord := bestMatch,
             confidence := calculateConfidence normalizedNotes info.notes,
             notes := normalizedNotes,
             root := info.root,
             quality := info.quality }]

theorem chordDetect_few_distinct {notes : List String}
    (h : (jsDedup notes).length < 3) : chordDetect notes = [] := by
  unfold chordDetect
  rw [if_pos h]

theorem combinations_of_short {α : Type} {arr : List α} {k : ℕ}
    (h : arr.length < k) : combinations arr k = [] := by
  unfold combinations
  rw [if_pos (Or.inr h)]

theorem refineNotes_small {notes : List String}
    (h : (jsDedup notes).length < 3) :
    refineNotesForChordDetection notes = (jsDedup notes).take 6 := by
  have hlim : ((jsDedup notes).take 6).length < 3 := by
    rw [List.length_take]
    omega
  unfold refineNotesForChordDetection
  simp only [combinations_of_short (show ((jsDedup notes).take 6).length < 4 by omega),
    combinations_of_short hlim, bestSubsetFold]

/-- C2: an input whose normalization has fewer than 3 distinct pitch classes
produces the empty result list (a normal value, no exception): either one of
the two length guards fires, or `Chord.detect` finds nothing (fewer than 3
distinct pitch classes) and the refinement subset search over a ≤2-element
deduplicated list has no 4- or 3-element combinations to try, so the refined
list is still too short and the final match on an empty candidate list
returns `[]`. -/
theorem detectChordsFromNotes_insufficient_distinct (notes : List String)
    (h : (jsDedup (normalizeNotes notes)).length < 3) :
    detectChordsFromNotes notes = [] := by
  unfold detectChordsFromNotes
  by_cases h1 : notes.length < 3
  · rw [if_pos h1]
  · rw [if_neg h1]
    by_cases h2 : (normalizeNotes notes).length < 3
    · simp only [if_pos h2]
    · simp only [if_neg h2]
      have hd : chordDetect (normalizeNotes notes) = [] := chordDetect_few_distinct h
      have hr : refineNotesForChordDetection (normalizeNotes notes) =
          (jsDedup (normalizeNotes notes)).take 6 := refineNotes_small h
      have hnle : ¬ 3 ≤ ((jsDedup (normalizeNotes notes)).take 6).length := by
        rw [List.length_take]
        omega
      simp only [hd, hr, List.length_nil, if_pos rfl, if_neg hnle]
      simp

/-- Witness for C2: three note names, only two distinct pitch classes. -/
theorem detectChordsFromNotes_insufficient_distinct_witness :
    detectChordsFromNotes ["C4", "C5", "G4"] = [] :=
  detectChordsFromNotes_insufficient_distinct ["C4", "C5", "G4"] (by
    have h1 : normalizeNotes ["C4", "C5", "G4"] = ["C", "C", "G"] := by decide
    rw [h1]
    have h2 : jsDedup ["C", "C", "G"] = ["C", "G"] := by
      simp [jsDedup]
    rw [h2]
    norm_num)

/-! ## Goertzel kernel (`goertzelMagnitude`, wav-decoder.d.ts lines 464-485)

Real-valued audio code (`Math.cos`, `Math.sin`, `Math.sqrt`, `Math.pow`,
`Math.log2`) is modelled over `ℝ`, hence `noncomputable`. -/

noncomputable section

/-- One iteration of the Goertzel loop (lines 478-481): state `(q1, q2)`,
`q0 = coeff * q1 - q2 + sample; q2 = q1; q1 = q0`. -/
def goertzelStep (coeff : ℝ) (s : ℝ × ℝ) (x : ℝ) : ℝ × ℝ :=
  (coeff * s.1 - s.2 + x, s.1)

/-- The second-order Goertzel recurrence exactly as the spec words it:
`s 0 = s 1 = 0` (the two zero-initialised delays) and
`s (n+2) = coeff * s (n+1) - s n + x n` — `s (n+1)` and `s n` are the values
of `q1` and `q2` after `n` samples have been consumed. -/
def goertzelS (coeff : ℝ) (x : ℕ → ℝ) : ℕ → ℝ
  | 0 => 0
  | 1 => 0
  | n + 2 => coeff * goertzelS coeff x (n + 1) - goertzelS coeff x n + x n

/-- `goertzelMagnitude` (wav-decoder.d.ts lines 464-485): guard on a
non-positive target frequency (the JavaScript guard also catches `±Infinity`
and `NaN`, which do not exist in `ℝ`), phase increment
`omega = 2π * targetFrequency / sampleRate` taken at the exact target
frequency, the second-order recurrence over all samples, and
`sqrt(real² + imag²)` from the final two states. -/
def goertzelMagnitude (samples : List ℝ) (sampleRate targetFrequency : ℝ) : ℝ :=
  if targetFrequency ≤ 0 then 0
  else
    let omega := 2 * Real.pi * targetFrequency / sampleRate
    let cosine := Real.cos omega
    let sine := Real.sin omega
    let st := samples.foldl (goertzelStep (2 * cosine)) (0, 0)
    Real.sqrt ((st.1 - st.2 * cosine) ^ 2 + (st.2 * sine) ^ 2)

theorem goertzelS_congr (coeff : ℝ) (x y : ℕ → ℝ) :
    ∀ k, (∀ i, i + 2 ≤ k → x i = y i) → goertzelS coeff x k = goertzelS coeff y k := by
  intro k
  induction k using Nat.strong_induction_on with
  | _ k ih =>
    match k with
    | 0 => intro _; rfl
    | 1 => intro _; rfl
    | n + 2 =>
      intro h
      rw [goertzelS, goertzelS]
      rw [ih (n + 1) (by omega) (fun i hi => h i (by omega)),
        ih n (by omega) (fun i hi => h i (by omega)), h n (by omega)]

theorem foldl_goertzelStep_eq (coeff : ℝ) :
    ∀ l : List ℝ,
      l.foldl (goertzelStep coeff) (0, 0) =
        (goertzelS coeff (fun j => l.getD j 0) (l.length + 1),
         goertzelS coeff (fun j => l.getD j 0) l.length) := by
  intro l
  induction l using List.reverseRecOn with
  | nil => rfl
  | append_singleton l x ih =>
    rw [List.foldl_append, ih]
    have hlen : (l ++ [x]).length = l.length + 1 := by simp
    have hcongr : ∀ k, k ≤ l.length + 1 →
        goertzelS coeff (fun j => (l ++ [x]).getD j 0) k =
          goertzelS coeff (fun j => l.getD j 0) k := by
      intro k hk
      apply goertzelS_congr
      intro i hi
      have hil : i < l.length := by omega
      simp [List.getD, List.getElem?_append_left hil]
    rw [hlen]
    rw [List.foldl_cons, List.foldl_nil]
    rw [goertzelS]
    rw [hcongr (l.length + 1) (le_refl _), hcongr l.length (by omega)]
    have hx : (l ++ [x]).getD l.length 0 = x := by
      simp [List.getD]
    rw [hx]
    rfl

theorem goertzelS_complex (ω : ℝ) (x : ℕ → ℝ) :
    ∀ n : ℕ,
      ((goertzelS (2 * Real.cos ω) x (n + 1) : ℝ) : ℂ) -
          (goertzelS (2 * Real.cos ω) x n : ℂ) * Complex.exp (-(ω : ℂ) * Complex.I) =
        ∑ j ∈ Finset.range n,
          (x j : ℂ) * Complex.exp ((ω : ℂ) * ((n : ℂ) - 1 - (j : ℂ)) * Complex.I) := by
  intro n
  induction n with
  | zero => simp [goertzelS]
  | succ n ih =>
    have hunf : goertzelS (2 * Real.cos ω) x (n + 2) =
        (2 * Real.cos ω) * goertzelS (2 * Real.cos ω) x (n + 1) -
          goertzelS (2 * Real.cos ω) x n + x n := by
      rw [goertzelS]
    rw [hunf]
    push_cast
    rw [Complex.two_cos]
    have hEF : Complex.exp ((ω : ℂ) * Complex.I) * Complex.exp (-(ω : ℂ) * Complex.I) = 1 := by
      rw [← Complex.exp_add]
      rw [show (ω : ℂ) * Complex.I + -(ω : ℂ) * Complex.I = 0 by ring]
      exact Complex.exp_zero
    rw [Finset.sum_range_succ]
    have step1 :
        (Complex.exp ((ω : ℂ) * Complex.I) + Complex.exp (-(ω : ℂ) * Complex.I)) *
              ((goertzelS (2 * Real.cos ω) x (n + 1) : ℝ) : ℂ) -
            (goertzelS (2 * Real.cos ω) x n : ℂ) + (x n : ℂ) -
            ((goertzelS (2 * Real.cos ω) x (n + 1) : ℝ) : ℂ) *
              Complex.exp (-(ω : ℂ) * Complex.I) =
          Complex.exp ((ω : ℂ) * Complex.I) *
              (((goertzelS (2 * Real.cos ω) x (n + 1) : ℝ) : ℂ) -
                (goertzelS (2 * Real.cos ω) x n : ℂ) * Complex.exp (-(ω : ℂ) * Complex.I)) +
            (x n : ℂ) := by
      linear_combination ((goertzelS (2 * Real.cos ω) x n : ℝ) : ℂ) * hEF
    rw [step1, ih, Finset.mul_sum]
    congr 1
    · apply Finset.sum_congr rfl
      intro j hj
      have hmerge : Complex.exp ((ω : ℂ) * Complex.I) *
          Complex.exp ((ω : ℂ) * ((n : ℂ) - 1 - (j : ℂ)) * Complex.I) =
            Complex.exp ((ω : ℂ) * (((n : ℂ) + 1) - 1 - (j : ℂ)) * Complex.I) := by
        rw [← Complex.exp_add]
        congr 1
        ring
      calc Complex.exp ((ω : ℂ) * Complex.I) *
            ((x j : ℂ) * Complex.exp ((ω : ℂ) * ((n : ℂ) - 1 - (j : ℂ)) * Complex.I))
          = (x j : ℂ) * (Complex.exp ((ω : ℂ) * Complex.I) *
              Complex.exp ((ω : ℂ) * ((n : ℂ) - 1 - (j : ℂ)) * Complex.I)) := by ring
        _ = (x j : ℂ) *
              Complex.exp ((ω : ℂ) * (((n : ℂ) + 1) - 1 - (j : ℂ)) * Complex.I) := by
            rw [hmerge]
    · rw [show (ω : ℂ) * (((n : ℕ) + 1 : ℂ) - 1 - (n : ℂ)) * Complex.I = 0 by ring]
      rw [Complex.exp_zero, mul_one]

theorem abs_sub_mul_exp_neg (A B : ℝ) (ω : ℝ) :
    Complex.abs ((A : ℂ) - (B : ℂ) * Complex.exp (-(ω : ℂ) * Complex.I)) =
      Real.sqrt ((A - B * Real.cos ω) ^ 2 + (B * Real.sin ω) ^ 2) := by
  have hz : (A : ℂ) - (B : ℂ) * Complex.exp (-(ω : ℂ) * Complex.I) =
      ((A - B * Real.cos ω : ℝ) : ℂ) + ((B * Real.sin ω : ℝ) : ℂ) * Complex.I := by
    rw [show -(ω : ℂ) * Complex.I = (-ω : ℂ) * Complex.I by ring]
    rw [Complex.exp_mul_I, Complex.cos_neg, Complex.sin_neg]
    rw [← Complex.ofReal_cos, ← Complex.ofReal_sin]
    push_cast
    ring
  rw [hz, Complex.abs_add_mul_I]

theorem abs_sum_phase (ω : ℝ) (x : ℕ → ℝ) (n : ℕ) :
    Complex.abs (∑ j ∈ Finset.range n,
        (x j : ℂ) * Complex.exp ((ω : ℂ) * ((n : ℂ) - 1 - (j : ℂ)) * Complex.I)) =
      Complex.abs (∑ j ∈ Finset.range n,
        (x j : ℂ) * Complex.exp (-((ω : ℂ) * (j : ℂ)) * Complex.I)) := by
  have hfac : ∑ j ∈ Finset.range n,
      (x j : ℂ) * Complex.exp ((ω : ℂ) * ((n : ℂ) - 1 - (j : ℂ)) * Complex.I) =
      Complex.exp ((ω : ℂ) * ((n : ℂ) - 1) * Complex.I) *
        ∑ j ∈ Finset.range n, (x j : ℂ) * Complex.exp (-((ω : ℂ) * (j : ℂ)) * Complex.I) := by
    rw [Finset.mul_sum]
    apply Finset.sum_congr rfl
    intro j hj
    have hjoin : Complex.exp ((ω : ℂ) * ((n : ℂ) - 1) * Complex.I) *
        Complex.exp (-((ω : ℂ) * (j : ℂ)) * Complex.I) =
          Complex.exp ((ω : ℂ) * ((n : ℂ) - 1 - (j : ℂ)) * Complex.I) := by
      rw [← Complex.exp_add]
      congr 1
      ring
    calc (x j : ℂ) * Complex.exp ((ω : ℂ) * ((n : ℂ) - 1 - (j : ℂ)) * Complex.I)
        = (x j : ℂ) * (Complex.exp ((ω : ℂ) * ((n : ℂ) - 1) * Complex.I) *
            Complex.exp (-((ω : ℂ) * (j : ℂ)) * Complex.I)) := by rw [hjoin]
      _ = Complex.exp ((ω : ℂ) * ((n : ℂ) - 1) * Complex.I) *
            ((x j : ℂ) * Complex.exp (-((ω : ℂ) * (j : ℂ)) * Complex.I)) := by ring
  rw [hfac, map_mul]
  rw [show (ω : ℂ) * ((n : ℂ) - 1) * Complex.I = ((ω * ((n : ℝ) - 1) : ℝ) : ℂ) * Complex.I by
    push_cast; ring]
  rw [Complex.abs_exp_ofReal_mul_I, one_mul]

/-- C8: for a positive sample rate and positive finite target frequency,
`goertzelMagnitude` equals `sqrt(real² + imag²)` where `real = q1 - q2·cos ω`
and `imag = q2·sin ω` are computed from the final two states of the
second-order recurrence `goertzelS` run over all samples with the EXACT
phase increment `ω = 2π·f/sampleRate` (first conjunct); equivalently, it is
the magnitude of the single-frequency DFT `|Σⱼ xⱼ·e^(−iωj)|` at that exact,
non-bin-quantized frequency (second conjunct). -/
theorem goertzelMagnitude_spec (samples : List ℝ) (sampleRate targetFrequency : ℝ)
    (hsr : 0 < sampleRate) (hf : 0 < targetFrequency) :
    goertzelMagnitude samples sampleRate targetFrequency =
        Real.sqrt
          ((goertzelS (2 * Real.cos (2 * Real.pi * targetFrequency / sampleRate))
                (fun j => samples.getD j 0) (samples.length + 1) -
              goertzelS (2 * Real.cos (2 * Real.pi * targetFrequency / sampleRate))
                  (fun j => samples.getD j 0) samples.length *
                Real.cos (2 * Real.pi * targetFrequency / sampleRate)) ^ 2 +
            (goertzelS (2 * Real.cos (2 * Real.pi * targetFrequency / sampleRate))
                  (fun j => samples.getD j 0) samples.length *
                Real.sin (2 * Real.pi * targetFrequency / sampleRate)) ^ 2) ∧
      goertzelMagnitude samples sampleRate targetFrequency =
        Complex.abs (∑ j ∈ Finset.range samples.length,
          (samples.getD j 0 : ℂ) *
            Complex.exp
              (-(((2 * Real.pi * targetFrequency / sampleRate : ℝ) : ℂ) * (j : ℂ)) *
                Complex.I)) := by
  have hguard : ¬ targetFrequency ≤ 0 := not_le.2 hf
  have hmain : goertzelMagnitude samples sampleRate targetFrequency =
      Real.sqrt
        ((goertzelS (2 * Real.cos (2 * Real.pi * targetFrequency / sampleRate))
              (fun j => samples.getD j 0) (samples.length + 1) -
            goertzelS (2 * Real.cos (2 * Real.pi * targetFrequency / sampleRate))
                (fun j => samples.getD j 0) samples.length *
              Real.cos (2 * Real.pi * targetFrequency / sampleRate)) ^ 2 +
          (goertzelS (2 * Real.cos (2 * Real.pi * targetFrequency / sampleRate))
                (fun j => samples.getD j 0) samples.length *
              Real.sin (2 * Real.pi * targetFrequency / sampleRate)) ^ 2) := by
    simp only [goertzelMagnitude, if_neg hguard]
    rw [foldl_goertzelStep_eq]
  refine ⟨hmain, ?_⟩
  rw [hmain]
  rw [← abs_sub_mul_exp_neg]
  rw [goertzelS_complex]
  rw [abs_sum_phase]

/-- Witness for C8 at `samples = [1]`, `sampleRate = 1`, `f = 1`. -/
theorem goertzelMagnitude_spec_witness :
    goertzelMagnitude [1] 1 1 =
        Real.sqrt
          ((goertzelS (2 * Real.cos (2 * Real.pi * 1 / 1))
                (fun j => [(1:ℝ)].getD j 0) ([(1:ℝ)].length + 1) -
              goertzelS (2 * Real.cos (2 * Real.pi * 1 / 1))
                  (fun j => [(1:ℝ)].getD j 0) [(1:ℝ)].length *
                Real.cos (2 * Real.pi * 1 / 1)) ^ 2 +
            (goertzelS (2 * Real.cos (2 * Real.pi * 1 / 1))
                  (fun j => [(1:ℝ)].getD j 0) [(1:ℝ)].length *
                Real.sin (2 * Real.pi * 1 / 1)) ^ 2) ∧
      goertzelMagnitude [1] 1 1 =
        Complex.abs (∑ j ∈ Finset.range [(1:ℝ)].length,
          ([(1:ℝ)].getD j 0 : ℂ) *
            Complex.exp
              (-(((2 * Real.pi * 1 / 1 : ℝ) : ℂ) * (j : ℂ)) * Complex.I)) :=
  goertzelMagnitude_spec [1] 1 1 (by norm_num) (by norm_num)

end

/-! ## Goertzel-grid frequency extractor (`extractFrequenciesFromAudioData`,
wav-decoder.d.ts lines 367-459) -/

noncomputable section
open Classical

/-- One grid candidate (`{ midi, frequency, magnitude }`, line 392). -/
structure GridCandidate where
  midi : ℕ
  frequency : ℝ
  magnitude : ℝ

/-- Equal-tempered fundamental of a MIDI note,
`440 * Math.pow(2, (midi - 69) / 12)` (line 399). -/
def noteFreq (midi : ℕ) : ℝ :=
  440 * (2 : ℝ) ^ (((midi : ℝ) - 69) / 12)

/-- The Hann windowing loop (lines 382-385):
`segment[i] *= 0.5 * (1 - cos(2π i / (segment.length - 1)))`, written as the
index map it performs. -/
def hannWindowed (segment : List ℝ) : List ℝ :=
  (List.range segment.length).map (fun i =>
    segment.getD i 0 *
      (0.5 * (1 - Real.cos ((2 * Real.pi * (i : ℝ)) / ((segment.length : ℝ) - 1)))))

/-- The `w`-th analysis window (lines 377-387): `windowSize = min(8192, len)`,
`t = w / 3` (with `windowsCount = 4` fixed), start index
`max(0, floor((len - windowSize) * t))`, slice, Hann window. -/
def windowSegment (channelData : List ℝ) (w : ℕ) : List ℝ :=
  let windowSize := min 8192 channelData.length
  let t : ℝ := (w : ℝ) / 3
  let startIndex : ℤ := max 0 ⌊((channelData.length : ℝ) - (windowSize : ℝ)) * t⌋
  hannWindowed ((channelData.drop startIndex.toNat).take windowSize)

/-- The per-grid-note accumulated score (lines 398-407): over the 4 windows,
fundamental magnitude plus half the 2nd-harmonic and a quarter of the
3rd-harmonic magnitude (each only below the Nyquist frequency). -/
def gridNoteScore (channelData : List ℝ) (sampleRate : ℝ) (midi : ℕ) : ℝ :=
  ((List.range 4).map (fun w =>
    let segment := windowSegment channelData w
    let freq := noteFreq midi
    let nyquist := sampleRate / 2
    goertzelMagnitude segment sampleRate freq +
      0.5 * (if freq * 2 < nyquist then goertzelMagnitude segment sampleRate (freq * 2) else 0) +
      0.25 * (if freq * 3 < nyquist then goertzelMagnitude segment sampleRate (freq * 3) else 0))).sum

/-- `mags[midi]` (lines 408-410): the score with the bass-emphasis weighting
(`×1.6` below 120 Hz, `×1.25` below 200 Hz). -/
def weightedMags (channelData : List ℝ) (sampleRate : ℝ) (midi : ℕ) : ℝ :=
  let score := gridNoteScore channelData sampleRate midi
  if noteFreq midi < 120 then score * 1.6
  else if noteFreq midi < 200 then score * 1.25
  else score

/-- The candidate array over the guitar grid, MIDI 40..76 (lines 389-412). -/
def gridCandidates (channelData : List ℝ) (sampleRate : ℝ) : List GridCandidate :=
  (List.range' 40 37).map (fun midi =>
    { midi := midi, frequency := noteFreq midi,
      magnitude := weightedMags channelData sampleRate midi })

/-- MIDI indices populated in the `mags` array; outside it the JavaScript
lookup `mags[i] ?? -Infinity` yields `-Infinity`, making the comparison
trivially true. -/
def inGrid (midi : ℕ) : Prop := 40 ≤ midi ∧ midi ≤ 76

/-- The local-maximum test of the `localMaxima` filter (lines 415-419):
strictly greater than both semitone neighbours, with out-of-grid neighbours
counting as `-Infinity`. -/
def isLocalMax (channelData : List ℝ) (sampleRate : ℝ) (c : GridCandidate) : Prop :=
  (inGrid (c.midi - 1) → weightedMags channelData sampleRate (c.midi - 1) < c.magnitude) ∧
    (inGrid (c.midi + 1) → weightedMags channelData sampleRate (c.midi + 1) < c.magnitude)

/-- `localMaxima`, sorted by magnitude descending (lines 415-422; the
JavaScript comparator `b.magnitude - a.magnitude` with a stable sort). -/
def sortedLocalMaxima (channelData : List ℝ) (sampleRate : ℝ) : List GridCandidate :=
  ((gridCandidates channelData sampleRate).filter
      (fun c => decide (isLocalMax channelData sampleRate c))).mergeSort
    (fun a b => decide (b.magnitude ≤ a.magnitude))

/-- The `isHarmonic` closure (lines 426-434): some multiple `k ∈ [2,6]` of
`baseHz` lies within 30 cents of `candHz` (`0 < ratio` because `Math.log2` of
a non-positive ratio is `NaN` or `-Infinity`, failing the comparison). -/
def isHarmonicHz (baseHz candHz : ℝ) : Prop :=
  ∃ k ∈ List.range' 2 5,
    0 < candHz / (baseHz * (k : ℝ)) ∧
      |1200 * Real.logb 2 (candHz / (baseHz * (k : ℝ)))| ≤ 30

/-- The greedy non-harmonic selection loop (lines 436-441 and 450-455):
skip candidates harmonic w.r.t. an already-chosen one, stop once `cap`
candidates are chosen (the cap check runs only after a push). -/
def pickNonHarmonic (cap : ℕ) (chosen : List GridCandidate) :
    List GridCandidate → List GridCandidate
  | [] => chosen
  | c :: rest =>
    if chosen.any (fun ch => decide (isHarmonicHz ch.frequency c.frequency)) then
      pickNonHarmonic cap chosen rest
    else
      let chosen' := chosen ++ [c]
      if cap ≤ chosen'.length then chosen' else pickNonHarmonic cap chosen' rest

/-- The strict pass (lines 436-445): up to 8 non-harmonic fundamentals,
then the relative-magnitude threshold `magnitude >= maxMag * 0.35` with
`maxMag = chosen[0]?.magnitude || 0`. -/
def strictFiltered (channelData : List ℝ) (sampleRate : ℝ) : List GridCandidate :=
  let chosen := pickNonHarmonic 8 [] (sortedLocalMaxima channelData sampleRate)
  let maxMag := ((chosen.head?).map GridCandidate.magnitude).getD 0
  chosen.filter (fun c => decide (maxMag * 0.35 ≤ c.magnitude))

/-- The relaxed pass (lines 448-456): top non-harmonic local maxima in ranked
order, up to 3. -/
def relaxedPick (channelData : List ℝ) (sampleRate : ℝ) : List GridCandidate :=
  pickNonHarmonic 3 [] (sortedLocalMaxima channelData sampleRate)

/-- `extractFrequenciesFromAudioData` (wav-decoder.d.ts lines 367-459):
empty-buffer guard, Goertzel scoring over the MIDI 40..76 grid, local-maxima
selection, harmonic suppression, relative threshold, and the relaxed
fallback taken when the strict pass leaves fewer than 3 fundamentals and the
relaxed set is at least as large. -/
def extractFrequenciesFromAudioData (channelData : List ℝ) (sampleRate : ℝ) : List ℝ :=
  if channelData.length = 0 then []
  else
    let filtered := strictFiltered channelData sampleRate
    let final :=
      if filtered.length < 3 then
        let relaxed := relaxedPick channelData sampleRate
        if filtered.length ≤ relaxed.length then relaxed else filtered
      else filtered
    final.map GridCandidate.frequency

/-- C9: whenever the buffer is non-empty, the strict pass keeps fewer than 3
fundamentals, and the relaxed selection (top-ranked non-harmonic local
maxima, up to 3) is at least as large as the strict set, the extractor
returns exactly the relaxed selection's frequencies. -/
theorem extractFrequencies_relaxed_fallback (channelData : List ℝ) (sampleRate : ℝ)
    (hne : channelData ≠ [])
    (hlt : (strictFiltered channelData sampleRate).length < 3)
    (hge : (strictFiltered channelData sampleRate).length ≤
      (relaxedPick channelData sampleRate).length) :
    extractFrequenciesFromAudioData channelData sampleRate =
      (relaxedPick channelData sampleRate).map GridCandidate.frequency := by
  have hlen : ¬ channelData.length = 0 := by
    simpa [List.length_eq_zero] using hne
  simp only [extractFrequenciesFromAudioData, if_neg hlen, if_pos hlt, if_pos hge]

theorem foldl_goertzelStep_zero (coeff : ℝ) :
    ∀ l : List ℝ, (∀ v ∈ l, v = 0) → l.foldl (goertzelStep coeff) (0, 0) = (0, 0) := by
  intro l
  induction l with
  | nil => intro _; rfl
  | cons a l ih =>
    intro h
    have ha : a = 0 := h a (List.mem_cons_self a l)
    rw [List.foldl_cons]
    have hstep : goertzelStep coeff (0, 0) a = (0, 0) := by
      simp [goertzelStep, ha]
    rw [hstep]
    exact ih (fun v hv => h v (List.mem_cons_of_mem a hv))

theorem goertzelMagnitude_zero (samples : List ℝ) (h : ∀ v ∈ samples, v = 0)
    (sampleRate targetFrequency : ℝ) :
    goertzelMagnitude samples sampleRate targetFrequency = 0 := by
  unfold goertzelMagnitude
  by_cases hf : targetFrequency ≤ 0
  · rw [if_pos hf]
  · rw [if_neg hf]
    simp only [foldl_goertzelStep_zero _ samples h]
    norm_num

theorem getD_zero_of_all_zero {l : List ℝ} (h : ∀ v ∈ l, v = 0) (i : ℕ) :
    l.getD i 0 = 0 := by
  rcases lt_or_ge i l.length with hi | hi
  · rw [List.getD_eq_getElem _ _ hi]
    exact h _ (List.getElem_mem hi)
  · rw [List.getD_eq_default _ _ hi]

theorem hannWindowed_all_zero {segment : List ℝ} (h : ∀ v ∈ segment, v = 0) :
    ∀ v ∈ hannWindowed segment, v = 0 := by
  intro v hv
  unfold hannWindowed at hv
  obtain ⟨i, _, rfl⟩ := List.mem_map.1 hv
  rw [getD_zero_of_all_zero h i, zero_mul]

theorem windowSegment_all_zero {channelData : List ℝ} (h : ∀ v ∈ channelData, v = 0)
    (w : ℕ) : ∀ v ∈ windowSegment channelData w, v = 0 := by
  unfold windowSegment
  apply hannWindowed_all_zero
  intro v hv
  exact h v (List.mem_of_mem_drop (List.mem_of_mem_take hv))

theorem gridNoteScore_zero {channelData : List ℝ} (h : ∀ v ∈ channelData, v = 0)
    (sampleRate : ℝ) (midi : ℕ) : gridNoteScore channelData sampleRate midi = 0 := by
  unfold gridNoteScore
  apply List.sum_eq_zero
  intro x hx
  obtain ⟨w, _, rfl⟩ := List.mem_map.1 hx
  have hg : ∀ f : ℝ, goertzelMagnitude (windowSegment channelData w) sampleRate f = 0 :=
    fun f => goertzelMagnitude_zero _ (windowSegment_all_zero h w) sampleRate f
  simp only [hg, ite_self]
  norm_num

theorem weightedMags_zero {channelData : List ℝ} (h : ∀ v ∈ channelData, v = 0)
    (sampleRate : ℝ) (midi : ℕ) : weightedMags channelData sampleRate midi = 0 := by
  unfold weightedMags
  simp only [gridNoteScore_zero h sampleRate midi]
  split_ifs <;> norm_num

theorem sortedLocalMaxima_zero {channelData : List ℝ} (h : ∀ v ∈ channelData, v = 0)
    (sampleRate : ℝ) : sortedLocalMaxima channelData sampleRate = [] := by
  unfold sortedLocalMaxima
  have hfilter : (gridCandidates channelData sampleRate).filter
      (fun c => decide (isLocalMax channelData sampleRate c)) = [] := by
    rw [List.filter_eq_nil_iff]
    intro c hc
    obtain ⟨m, hm, rfl⟩ := List.mem_map.1 hc
    rw [List.mem_range'] at hm
    obtain ⟨i, hi, rfl⟩ := hm
    simp only [decide_eq_true_eq, isLocalMax, inGrid]
    rintro ⟨hleft, hright⟩
    by_cases hm76 : 40 + i ≤ 75
    · have hr := hright ⟨by omega, by omega⟩
      rw [weightedMags_zero h, weightedMags_zero h] at hr
      exact lt_irrefl 0 hr
    · have hl := hleft ⟨by omega, by omega⟩
      rw [weightedMags_zero h, weightedMags_zero h] at hl
      exact lt_irrefl 0 hl
  rw [hfilter, List.mergeSort_nil]

theorem strictFiltered_zero {channelData : List ℝ} (h : ∀ v ∈ channelData, v = 0)
    (sampleRate : ℝ) : strictFiltered channelData sampleRate = [] := by
  unfold strictFiltered
  rw [sortedLocalMaxima_zero h sampleRate]
  rfl

theorem relaxedPick_zero {channelData : List ℝ} (h : ∀ v ∈ channelData, v = 0)
    (sampleRate : ℝ) : relaxedPick channelData sampleRate = [] := by
  unfold relaxedPick
  rw [sortedLocalMaxima_zero h sampleRate]
  rfl

/-- C7: an empty buffer (`n = 0`) or an all-zero buffer of any length yields
the empty frequency list, and — whatever number conversion feeds the note
quantizer — an empty pitch-class list and an empty chord-candidate list, with
every stage returning a normal value. -/
theorem silence_yields_empty_pipeline (n : ℕ) (sampleRate : ℝ) :
    extractFrequenciesFromAudioData (List.replicate n 0) sampleRate = [] ∧
      (∀ g : ℝ → JSNum,
        frequenciesToNotes
          ((extractFrequenciesFromAudioData (List.replicate n 0) sampleRate).map g) = []) ∧
      (∀ g : ℝ → JSNum,
        detectChordsFromNotes (frequenciesToNotes
          ((extractFrequenciesFromAudioData (List.replicate n 0) sampleRate).map g)) = []) := by
  have hzero : ∀ v ∈ List.replicate n (0:ℝ), v = 0 :=
    fun v hv => List.eq_of_mem_replicate hv
  have hext : extractFrequenciesFromAudioData (List.replicate n 0) sampleRate = [] := by
    unfold extractFrequenciesFromAudioData
    by_cases hn : (List.replicate n (0:ℝ)).length = 0
    · rw [if_pos hn]
    · rw [if_neg hn]
      simp only [strictFiltered_zero hzero sampleRate, relaxedPick_zero hzero sampleRate]
      norm_num
  refine ⟨hext, ?_, ?_⟩
  · intro g
    rw [hext]
    simp [frequenciesToNotes, jsDedup]
  · intro g
    rw [hext]
    have h1 : frequenciesToNotes (List.map g []) = [] := by
      simp [frequenciesToNotes, jsDedup]
    rw [h1]
    rfl

/-- Witness for C9 at the concrete two-sample silent buffer `[0, 0]` with
sample rate 1: the strict pass and the relaxed pass are both empty, so the
hypotheses hold and the extractor returns the (empty) relaxed set. -/
theorem extractFrequencies_relaxed_fallback_witness :
    extractFrequenciesFromAudioData [0, 0] 1 =
      (relaxedPick [0, 0] 1).map GridCandidate.frequency := by
  have hzero : ∀ v ∈ [(0:ℝ), 0], v = 0 := by
    intro v hv
    rcases List.mem_cons.1 hv with h | h
    · exact h
    · rcases List.mem_cons.1 h with h' | h'
      · exact h'
      · simp at h'
  exact extractFrequencies_relaxed_fallback [0, 0] 1 (by simp)
    (by rw [strictFiltered_zero hzero 1]; norm_num)
    (by rw [strictFiltered_zero hzero 1, relaxedPick_zero hzero 1])

end
